import Mathlib

/-!
Verification development for the LDA collapsed Gibbs sampler
(file src/lda/lda.py of the lda repository).

The Python class LDA is embedded shallowly:

* counts are integer-valued tables, modelled as functions out of the
  natural numbers (numpy arrays nzw_, ndz_, nz_);
* probabilities and random variates are exact rationals;
* the C extension lda._lda (the per-token Gibbs update and the
  log-likelihood evaluator) and the helpers in lda.utils
  (matrix_to_lists, check_random_state) are not part of the given
  sources; they are modelled from the specification, and each such
  definition is marked in its doc comment;
* the numpy shuffle, the random pool generator and the log-likelihood
  value are kept as explicit functional parameters of the definitions
  that call them, mirroring their role as collaborators outside the sources.
-/

namespace LdaSpec

/-- Count State of the model: the three mutable count tables
nzw_ (topic-word), ndz_ (document-topic) and nz_ (topic totals),
exactly the arrays created by the Python method that sets up the model
state (lda.py lines 262-264), with unbounded index range and value 0
outside the allocated shape. -/
structure Counts where
  nzw : ℕ → ℕ → ℤ
  ndz : ℕ → ℕ → ℤ
  nz  : ℕ → ℤ

/-- Pointwise update of a one-dimensional table: add v at index i. -/
def bump (f : ℕ → ℤ) (i : ℕ) (v : ℤ) : ℕ → ℤ :=
  fun j => if j = i then f j + v else f j

/-- Simultaneous update of the three count tables for one token with
word w, document d and topic z: the increment (v = 1) respectively the
decrement (v = -1) performed by the sampler and by model setup
(lda.py lines 273-275 and the corresponding C loop). -/
def adjust (c : Counts) (w d z : ℕ) (v : ℤ) : Counts where
  nzw := fun z2 => if z2 = z then bump (c.nzw z2) w v else c.nzw z2
  ndz := fun d2 => if d2 = d then bump (c.ndz d2) z v else c.ndz d2
  nz  := bump c.nz z v

/-- Counts with every entry zero (np.zeros, lda.py lines 262-264). -/
def zeroCounts : Counts where
  nzw := fun _ _ => 0
  ndz := fun _ _ => 0
  nz  := fun _ => 0

/-- Token list of one matrix row: word w repeated row[w] times, in
increasing word order.  Modelled from the spec: lda.utils.matrix_to_lists
is not among the given sources; the spec (section 6) requires that for
matrix entry (d, w) with count c exactly c tokens with word w appear,
row-major over documents then over word occurrences within a document. -/
def rowTokens (row : List ℕ) : List ℕ :=
  (row.enum.map (fun p => List.replicate p.2 p.1)).flatten

/-- Full token stream of a count matrix as (word, document) pairs in
row-major order.  Modelled from the spec: lda.utils.matrix_to_lists is
not among the given sources (see rowTokens). -/
def matrixTokens (X : List (List ℕ)) : List (ℕ × ℕ) :=
  (X.enum.map (fun p => (rowTokens p.2).map (fun w => (w, p.1)))).flatten

/-- Tokens with their deterministic round-robin topic assignment
z = i mod n_topics, as triples (w, d, z) (lda.py lines 269-272). -/
def initAssign (K : ℕ) (toks : List (ℕ × ℕ)) : List (ℕ × ℕ × ℕ) :=
  toks.enum.map (fun p => (p.2.1, p.2.2, p.1 % K))

/-- Fold the per-token increments over a token list, starting from the
given counts (the loop of lda.py lines 269-275). -/
def applyTokens (c : Counts) (ts : List (ℕ × ℕ × ℕ)) : Counts :=
  ts.foldl (fun acc t => adjust acc t.1 t.2.1 t.2.2 1) c

/-- Unnormalized conditional mass of topic z for a token with word w in
document d: (nzw[z][w] + eta) * (ndz[d][z] + alpha) / (nz[z] + eta * W).
Modelled from the spec: the C routine lda._lda._sample_topics is not
among the given sources; the spec (section 4.2) gives this formula. -/
def condMass (c : Counts) (W : ℕ) (alpha eta : ℚ) (w d z : ℕ) : ℚ :=
  ((c.nzw z w : ℚ) + eta) * ((c.ndz d z : ℚ) + alpha) / ((c.nz z : ℚ) + eta * (W : ℚ))

/-- Linear scan of the cumulative sum: the smallest index whose running
total reaches r, clamped to the last index of the list when rounding
lets every cumulative value fall short of r.  Modelled from the spec:
the C routine lda._lda._sample_topics is not among the given sources;
the spec (section 4.2 step 3) describes this scan and the clamp. -/
def cumSelect : List ℚ → ℚ → ℕ
  | [], _ => 0
  | _ :: [], _ => 0
  | m :: m2 :: rest, r => if r ≤ m then 0 else cumSelect (m2 :: rest) (r - m) + 1

/-- Resample one token: decrement the three counts at the old topic,
build the conditional masses over all topics from the decremented
counts, draw r = u * (total mass), select the new topic by cumulative
scan, and increment the three counts at the new topic.  Modelled from
the spec: lda._lda._sample_topics is not among the given sources; the
spec (section 4.2 steps 1-4) prescribes exactly this order. -/
def sampleToken (K W : ℕ) (alpha eta : ℚ) (c : Counts) (w d zold : ℕ) (u : ℚ) :
    ℕ × Counts :=
  let c1 := adjust c w d zold (-1)
  let ms := (List.range K).map (condMass c1 W alpha eta w d)
  let znew := cumSelect ms (u * ms.sum)
  (znew, adjust c1 w d znew 1)

/-- One sweep over a token list, threading the counts and consuming one
pool variate per token in token order (index modulo the pool length).
Returns the new topic assignment list together with the final counts.
Modelled from the spec: lda._lda._sample_topics is not among the given
sources; the spec (section 4.2) prescribes one draw per token in token
order from the shuffled pool. -/
def sweepGo (K W : ℕ) (alpha eta : ℚ) (rands : List ℚ) :
    List (ℕ × ℕ × ℕ) → ℕ → Counts → List ℕ × Counts
  | [], _, c => ([], c)
  | t :: rest, i, c =>
    let u := rands.getD (i % rands.length) 0
    let p := sampleToken K W alpha eta c t.1 t.2.1 t.2.2 u
    let q := sweepGo K W alpha eta rands rest (i + 1) p.2
    (p.1 :: q.1, q.2)

/-- One full sweep starting at token index 0. -/
def sweepTokens (K W : ℕ) (alpha eta : ℚ) (rands : List ℚ)
    (ts : List (ℕ × ℕ × ℕ)) (c : Counts) : List ℕ × Counts :=
  sweepGo K W alpha eta rands ts 0 c

/-- State of one LDA instance: the constructor arguments, the private
random variate pool _rands, the shapes and count tables, the token
store WS / DS / ZS and the log-likelihood history (lda.py lines 84-104
and 262-276). -/
structure Model where
  n_topics : ℕ
  n_iter : ℕ
  alpha : ℚ
  eta : ℚ
  refresh : ℕ
  _rands : List ℚ
  n_docs : ℕ
  vocab_size : ℕ
  nzw_ : ℕ → ℕ → ℤ
  ndz_ : ℕ → ℕ → ℤ
  nz_ : ℕ → ℤ
  WS : List ℕ
  DS : List ℕ
  ZS : List ℕ
  loglikelihoods_ : List ℚ

/-- Constructor of the LDA class (lda.py lines 84-100): record the
hyperparameters, raise when alpha or eta is not positive, and otherwise
fill the private pool from the random source.  The pool generator
rngPool stands for the numpy generator (rng.rand, a collaborator
outside the given sources) as a deterministic function of the seed. -/
def ldaNew (rngPool : ℕ → List ℚ) (n_topics n_iter : ℕ) (alpha eta : ℚ)
    (seed : ℕ) (refresh : ℕ) : Except String Model :=
  if alpha ≤ 0 ∨ eta ≤ 0 then
    Except.error "alpha and eta must be greater than zero"
  else
    Except.ok
      { n_topics := n_topics, n_iter := n_iter, alpha := alpha, eta := eta
        refresh := refresh, _rands := rngPool seed
        n_docs := 0, vocab_size := 0
        nzw_ := fun _ _ => 0, ndz_ := fun _ _ => 0, nz_ := fun _ => 0
        WS := [], DS := [], ZS := [], loglikelihoods_ := [] }

/-- Vocabulary size of a matrix given as a list of rows: the length of
the first row (the second component of X.shape for a rectangular
matrix). -/
def vocabOf (X : List (List ℕ)) : ℕ := (X.headD []).length

/-- Model state setup from a count matrix (the method of lda.py lines
251-276): expand the matrix to the token stream, assign topic i mod
n_topics to token i, populate the three count tables from exactly these
assignments, and reset the log-likelihood history. -/
def initState (m : Model) (X : List (List ℕ)) : Model :=
  let toks := matrixTokens X
  let ts := initAssign m.n_topics toks
  let c := applyTokens zeroCounts ts
  { m with
    n_docs := X.length, vocab_size := vocabOf X
    nzw_ := c.nzw, ndz_ := c.ndz, nz_ := c.nz
    WS := toks.map Prod.fst, DS := toks.map Prod.snd
    ZS := ts.map (fun t => t.2.2)
    loglikelihoods_ := [] }

/-- One call of the C sweep on the model state (lda.py lines 296-302):
run one full sweep over the stored token stream with the given variate
list and store the new assignments and counts. -/
def sampleTopicsOnce (m : Model) (rands : List ℚ) : Model :=
  let ts := List.zip m.WS (List.zip m.DS m.ZS)
  let r := sweepTokens m.n_topics m.vocab_size m.alpha m.eta rands ts
    (Counts.mk m.nzw_ m.ndz_ m.nz_)
  { m with ZS := r.1, nzw_ := r.2.nzw, ndz_ := r.2.ndz, nz_ := r.2.nz }

/-- Loop body of sample_topics (lda.py lines 289-294): the local
variable rands starts as a copy of the stored pool and is reshuffled
before every sweep.  The parameter shuffle stands for the
numpy random_state.shuffle (a collaborator outside the given sources),
indexed by the number of shuffle calls already made since the
random_state was freshly seeded at the start of the call. -/
def stGo (shuffle : ℕ → List ℚ → List ℚ) : ℕ → ℕ → Model → List ℚ → Model
  | _, 0, m, _ => m
  | it, n + 1, m, rands =>
    let rands2 := shuffle it rands
    stGo shuffle (it + 1) n (sampleTopicsOnce m rands2) rands2

/-- Method sample_topics (lda.py lines 289-294): re-seed the random
source, copy the stored pool into a local buffer, and run the requested
number of sweeps, reshuffling the local buffer before each.  The stored
pool field _rands is only read, never written. -/
def sample_topics (shuffle : ℕ → List ℚ → List ℚ) (m : Model)
    (iterations : ℕ) : Model :=
  stGo shuffle 0 iterations m m._rands

/-- Variate list used for sweep k of one sample_topics call: the pool
after k + 1 reshuffles of the seeded stream. -/
def sweepRands (shuffle : ℕ → List ℚ → List ℚ) (pool : List ℚ) : ℕ → List ℚ
  | 0 => shuffle 0 pool
  | k + 1 => shuffle (k + 1) (sweepRands shuffle pool k)

set_option linter.unusedVariables false in
/-- Checkpointed fitting loop of the method at lda.py lines 224-249,
generic in the model state M, the sampler call samp (iterations applied
to a state) and the log-likelihood evaluator ll: while it < n_iter,
record ll, run min(refresh, n_iter - it) sweeps, and advance it by
refresh; after the loop record ll once more.  Returns the final state
and the recorded history in chronological order. -/
def fitGo {M : Type} {A : Type} (samp : ℕ → M → M) (ll : M → A)
    (n_iter refresh : ℕ) (it : ℕ) (m : M) : M × List A :=
  if hcont : it < n_iter ∧ 0 < refresh then
    let m2 := samp (min refresh (n_iter - it)) m
    let r := fitGo samp ll n_iter refresh (it + refresh) m2
    (r.1, ll m :: r.2)
  else
    (m, [ll m])
termination_by n_iter - it
decreasing_by
  obtain ⟨h1, h2⟩ := hcont
  omega

/-- Method clean_up (lda.py lines 304-313): drop the token store after
fitting; the count tables survive. -/
def clean_up (m : Model) : Model :=
  { m with WS := [], DS := [], ZS := [] }

/-- Fitted model state before clean_up: state setup followed by the
checkpointed sweep loop, with the history recorded into the
loglikelihoods_ field.  The parameters shuffle and ll stand for the
collaborators outside the sources (numpy shuffle and the C log-likelihood). -/
def fitModel (shuffle : ℕ → List ℚ → List ℚ) (ll : Model → ℚ)
    (m : Model) (X : List (List ℕ)) : Model :=
  let m0 := initState m X
  let r := fitGo (fun k mm => sample_topics shuffle mm k) ll m0.n_iter m0.refresh 0 m0
  { r.1 with loglikelihoods_ := r.2 }

/-- Private fitting method (lda.py lines 224-249) including the final
clean_up call. -/
def ldaFit (shuffle : ℕ → List ℚ → List ℚ) (ll : Model → ℚ)
    (m : Model) (X : List (List ℕ)) : Model :=
  clean_up (fitModel shuffle ll m X)

/-- Method fit (lda.py lines 124-139): run the private fitting method
and return the instance. -/
def fit (shuffle : ℕ → List ℚ → List ℚ) (ll : Model → ℚ)
    (m : Model) (X : List (List ℕ)) : Model :=
  ldaFit shuffle ll m X

/-- Property components_ (lda.py lines 315-320): the topic-word point
estimate (nzw[z][w] + eta) normalized over the vocabulary axis,
recomputed from the current count table at every access. -/
def componentsOf (m : Model) : ℕ → ℕ → ℚ :=
  fun z w =>
    ((m.nzw_ z w : ℚ) + m.eta) /
      (Finset.range m.vocab_size).sum (fun w2 => (m.nzw_ z w2 : ℚ) + m.eta)

/-- Property doc_topic_ (lda.py lines 326-330): the document-topic point
estimate (ndz[d][z] + alpha) normalized over the topic axis, recomputed
from the current count table at every access. -/
def docTopicOf (m : Model) : ℕ → ℕ → ℚ :=
  fun d z =>
    ((m.ndz_ d z : ℚ) + m.alpha) /
      (Finset.range m.n_topics).sum (fun z2 => (m.ndz_ d z2 : ℚ) + m.alpha)

/-- Method fit_transform (lda.py lines 141-161): run the private fitting
method and return the document-topic point estimate of the fitted
state. -/
def fit_transform (shuffle : ℕ → List ℚ → List ℚ) (ll : Model → ℚ)
    (m : Model) (X : List (List ℕ)) : ℕ → ℕ → ℚ :=
  docTopicOf (ldaFit shuffle ll m X)

/-- Normalize a list so that it sums to 1 (the numpy row divisions in
transform, lda.py lines 202, 211 and 218). -/
def normRow (row : List ℚ) : List ℚ :=
  row.map (fun x => x / row.sum)

/-- Initial soft-assignment matrix of transform (lda.py lines 199-203):
one row per token of the document, row i proportional to
phi[z][w_i] * alpha, normalized to sum to 1. -/
def initPZS (phi : ℕ → ℕ → ℚ) (K : ℕ) (alpha : ℚ) (ws : List ℕ) :
    List (List ℚ) :=
  ws.map (fun w => normRow ((List.range K).map (fun z => phi z w * alpha)))

/-- Column sums of a soft-assignment matrix (PZS.sum(axis=0),
lda.py line 206). -/
def colSums (K : ℕ) (P : List (List ℚ)) : List ℚ :=
  (List.range K).map (fun z => (P.map (fun row => row.getD z 0)).sum)

/-- Pointwise difference of two equal-length vectors. -/
def vecSub (a b : List ℚ) : List ℚ := List.zipWith (fun x y => x - y) a b

/-- Pointwise sum of two equal-length vectors. -/
def vecAdd (a b : List ℚ) : List ℚ := List.zipWith (fun x y => x + y) a b

/-- Inner token loop of one transform round (lda.py lines 207-210),
kept faithful to the in-place discipline of the source: the running
vector s (PZS_sum) has row i subtracted, the unnormalized new row i is
phi[z][w_i] * (s[z] + alpha), and row i is added back before moving
on. -/
def rowUpdGo (phi : ℕ → ℕ → ℚ) (K : ℕ) (alpha : ℚ) :
    List (ℕ × List ℚ) → List ℚ → List (List ℚ)
  | [], _ => []
  | (w, row) :: rest, s =>
    let s1 := vecSub s row
    let newRow := (List.range K).map (fun z => phi z w * (s1.getD z 0 + alpha))
    newRow :: rowUpdGo phi K alpha rest (vecAdd s1 row)

/-- One transform round (lda.py lines 206-211): run the inner token
loop starting from the column sums of the previous matrix, then
normalize every row of the new matrix. -/
def sourceRound (phi : ℕ → ℕ → ℚ) (K : ℕ) (alpha : ℚ) (ws : List ℕ)
    (P : List (List ℚ)) : List (List ℚ) :=
  (rowUpdGo phi K alpha (ws.zip P) (colSums K P)).map normRow

/-- L1 distance between two soft-assignment matrices
(np.abs(PZS_new - PZS).sum(), lda.py line 212). -/
def l1Dist (P Q : List (List ℚ)) : ℚ :=
  (List.zipWith (fun r s => (List.zipWith (fun a b => |a - b|) r s).sum) P Q).sum

/-- Fixed-point loop of transform (lda.py lines 205-216): up to the given
number of rounds, with early exit as soon as the L1 distance between
successive matrices falls below tol. -/
def iterLoop (phi : ℕ → ℕ → ℚ) (K : ℕ) (alpha tol : ℚ) (ws : List ℕ) :
    ℕ → List (List ℚ) → List (List ℚ)
  | 0, P => P
  | s + 1, P =>
    let Pn := sourceRound phi K alpha ws P
    if l1Dist Pn P < tol then Pn else iterLoop phi K alpha tol ws s Pn

/-- Transform of one document (the body of the loop at lda.py lines
197-221): iterated pseudo-count estimation from the initial matrix,
then the column sums of the final matrix normalized to sum to 1. -/
def transformDoc (phi : ℕ → ℕ → ℚ) (K : ℕ) (alpha : ℚ)
    (max_iter : ℕ) (tol : ℚ) (ws : List ℕ) : List ℚ :=
  normRow (colSums K (iterLoop phi K alpha tol ws max_iter (initPZS phi K alpha ws)))

/-- Method transform (lda.py lines 163-222): per document of the new
matrix, the tokens of that document (WS[DS == d]) are the expanded row,
and the document is scored by the fixed-point loop against the frozen
components_ of the fitted model. -/
def transformModel (m : Model) (X : List (List ℕ)) (max_iter : ℕ)
    (tol : ℚ) : List (List ℚ) :=
  X.map (fun row =>
    transformDoc (componentsOf m) m.n_topics m.alpha max_iter tol (rowTokens row))

/-- Transform round as worded by the specification (section 4.5 step 2)
and the claim under audit: row i of the new matrix is
phi[z][w_i] * (colSum of the previous matrix minus row i, plus alpha),
normalized to sum to 1.  Stated independently of the in-place
accumulator discipline of the source, to be compared with
sourceRound. -/
def claimRound (phi : ℕ → ℕ → ℚ) (K : ℕ) (alpha : ℚ) (ws : List ℕ)
    (P : List (List ℚ)) : List (List ℚ) :=
  (ws.zip P).map (fun p =>
    normRow ((List.range K).map
      (fun z => phi z p.1 * ((colSums K P).getD z 0 - p.2.getD z 0 + alpha))))

/-- Fixed-point loop written with the claim-worded round, with the same
early exit as the source loop. -/
def claimIterLoop (phi : ℕ → ℕ → ℚ) (K : ℕ) (alpha tol : ℚ) (ws : List ℕ) :
    ℕ → List (List ℚ) → List (List ℚ)
  | 0, P => P
  | s + 1, P =>
    let Pn := claimRound phi K alpha ws P
    if l1Dist Pn P < tol then Pn else claimIterLoop phi K alpha tol ws s Pn

/-- Transform of one document as worded by the claim: claim-worded
rounds from the normalized phi * alpha start, output the normalized
column sums of the final matrix. -/
def claimTransformDoc (phi : ℕ → ℕ → ℚ) (K : ℕ) (alpha : ℚ)
    (max_iter : ℕ) (tol : ℚ) (ws : List ℕ) : List ℚ :=
  normRow (colSums K (claimIterLoop phi K alpha tol ws max_iter (initPZS phi K alpha ws)))

/-- Buffer contents after applying the shuffles it, it+1, ..., it+k-1 in
order to the list rands. -/
def chainFrom (shuffle : ℕ → List ℚ → List ℚ) (it : ℕ) (rands : List ℚ) :
    ℕ → List ℚ
  | 0 => rands
  | k + 1 => shuffle (it + k) (chainFrom shuffle it rands k)

/-- Model obtained by running the sweeps of one sample_topics call as a
fold over the per-sweep variate lists sweepRands 0, ..., n-1. -/
def foldSweeps (shuffle : ℕ → List ℚ → List ℚ) (m : Model) (n : ℕ) : Model :=
  (List.range n).foldl
    (fun mm k => sampleTopicsOnce mm (sweepRands shuffle m._rands k)) m

/-- Count tables of a model bundled as one Counts value. -/
def countsOf (m : Model) : Counts :=
  Counts.mk m.nzw_ m.ndz_ m.nz_

/-- Concrete two-variate pool for witnesses. -/
def demoPool : List ℚ := [1/2, 1/4]

/-- Concrete pool generator for witnesses. -/
def demoRng : ℕ → List ℚ := fun _ => demoPool

/-- Concrete shuffle for witnesses: every call reverses the buffer (a
permutation, like any real shuffle). -/
def demoShuffle : ℕ → List ℚ → List ℚ := fun _ l => l.reverse

/-- Concrete log-likelihood stand-in for witnesses. -/
def demoLL : Model → ℚ := fun m => (m.nz_ 0 : ℚ)

/-- Concrete two-topic model over a two-word vocabulary holding two
tokens, with consistent count tables, for witnesses. -/
def demoModel : Model where
  n_topics := 2
  n_iter := 3
  alpha := 1/10
  eta := 1/100
  refresh := 2
  _rands := demoPool
  n_docs := 1
  vocab_size := 2
  nzw_ := fun z w => if z = 0 ∧ w = 0 then 1 else if z = 1 ∧ w = 1 then 1 else 0
  ndz_ := fun d z => if d = 0 ∧ z ≤ 1 then 1 else 0
  nz_ := fun z => if z ≤ 1 then 1 else 0
  WS := [0, 1]
  DS := [0, 0]
  ZS := [0, 1]
  loglikelihoods_ := []

/-- Concrete document-word matrix for witnesses: two documents over a
two-word vocabulary. -/
def demoX : List (List ℕ) := [[1, 0], [1, 1]]

/-- Copy of the demo model with a different private pool (a different
seed), for seed-independence witnesses. -/
def demoModel2 : Model :=
  { demoModel with _rands := [3/4] }

/-- Model value produced by the constructor at the demo arguments. -/
def demoNewModel : Model where
  n_topics := 2
  n_iter := 1
  alpha := 1/10
  eta := 1/100
  refresh := 1
  _rands := demoRng 0
  n_docs := 0
  vocab_size := 0
  nzw_ := fun _ _ => 0
  ndz_ := fun _ _ => 0
  nz_ := fun _ => 0
  WS := []
  DS := []
  ZS := []
  loglikelihoods_ := []

/-- Count invariant of the spec (section 8): for every topic z the
nzw row sum and the ndz column sum both equal nz[z], and the nz entries
sum to the total token count N. -/
def countInv (c : Counts) (K W D : ℕ) (N : ℤ) : Prop :=
  (∀ z ∈ Finset.range K,
    (Finset.range W).sum (fun w => c.nzw z w) = c.nz z ∧
    (Finset.range D).sum (fun d => c.ndz d z) = c.nz z) ∧
  (Finset.range K).sum c.nz = N

theorem sum_bump (f : ℕ → ℤ) (i : ℕ) (v : ℤ) (n : ℕ) (hi : i < n) :
    (Finset.range n).sum (bump f i v) = (Finset.range n).sum f + v := by
  have hpt : ∀ j, bump f i v j = f j + (if j = i then v else 0) := by
    intro j
    by_cases h : j = i <;> simp [bump, h]
  simp only [hpt]
  rw [Finset.sum_add_distrib, Finset.sum_ite_eq' (Finset.range n) i (fun _ => v)]
  simp [Finset.mem_range.mpr hi]

theorem sum_bump_ne (f : ℕ → ℤ) (i : ℕ) (v : ℤ) (n : ℕ) (hi : n ≤ i) :
    (Finset.range n).sum (bump f i v) = (Finset.range n).sum f := by
  apply Finset.sum_congr rfl
  intro j hj
  have : j ≠ i := by
    have := Finset.mem_range.mp hj
    omega
  simp [bump, this]

theorem adjust_nzw_eq (c : Counts) (w d z : ℕ) (v : ℤ) (z2 w2 : ℕ) :
    (adjust c w d z v).nzw z2 w2 =
      if z2 = z then bump (c.nzw z2) w v w2 else c.nzw z2 w2 := by
  by_cases h : z2 = z <;> simp [adjust, h]

theorem adjust_ndz_eq (c : Counts) (w d z : ℕ) (v : ℤ) (d2 z2 : ℕ) :
    (adjust c w d z v).ndz d2 z2 =
      if d2 = d then bump (c.ndz d2) z v z2 else c.ndz d2 z2 := by
  by_cases h : d2 = d <;> simp [adjust, h]

theorem adjust_nz_eq (c : Counts) (w d z : ℕ) (v : ℤ) (z2 : ℕ) :
    (adjust c w d z v).nz z2 = bump c.nz z v z2 := by
  simp only [adjust]

theorem countInv_adjust (c : Counts) (K W D : ℕ) (N : ℤ) (w d z : ℕ) (v : ℤ)
    (hw : w < W) (hd : d < D) (hz : z < K) (hc : countInv c K W D N) :
    countInv (adjust c w d z v) K W D (N + v) := by
  obtain ⟨hrows, htot⟩ := hc
  refine ⟨?_, ?_⟩
  · intro z2 hz2
    obtain ⟨h1, h2⟩ := hrows z2 hz2
    constructor
    · simp only [adjust_nzw_eq, adjust_nz_eq]
      by_cases hzz : z2 = z
      · subst hzz
        simp only [eq_self_iff_true, if_true]
        rw [sum_bump _ _ _ _ hw, h1]
        simp [bump]
      · simp only [if_neg hzz]
        rw [h1]
        simp [bump, hzz]
    · simp only [adjust_ndz_eq, adjust_nz_eq]
      by_cases hzz : z2 = z
      · subst hzz
        have hsummand : ∀ d2, (if d2 = d then bump (c.ndz d2) z2 v z2 else c.ndz d2 z2) =
            bump (fun d3 => c.ndz d3 z2) d v d2 := by
          intro d2
          by_cases hdd : d2 = d <;> simp [bump, hdd]
        simp only [hsummand]
        rw [sum_bump _ _ _ _ hd, h2]
        simp [bump]
      · have hsummand : ∀ d2, (if d2 = d then bump (c.ndz d2) z v z2 else c.ndz d2 z2) =
            c.ndz d2 z2 := by
          intro d2
          by_cases hdd : d2 = d <;> simp [bump, hdd, hzz]
        simp only [hsummand]
        rw [h2]
        simp [bump, hzz]
  · simp only [adjust_nz_eq]
    rw [sum_bump _ _ _ _ hz, htot]

theorem countInv_zero (K W D : ℕ) : countInv zeroCounts K W D 0 := by
  refine ⟨?_, ?_⟩ <;> simp [zeroCounts]

theorem cumSelect_lt_length (ms : List ℚ) (r : ℚ) (h : ms ≠ []) :
    cumSelect ms r < ms.length := by
  induction ms generalizing r with
  | nil => exact absurd rfl h
  | cons m rest ih =>
    cases rest with
    | nil => simp [cumSelect]
    | cons m2 rest2 =>
      rw [cumSelect]
      by_cases hr : r ≤ m
      · simp [hr]
      · have hlt := ih (r - m) (by simp)
        simp only [if_neg hr]
        simpa using Nat.succ_lt_succ hlt

theorem cumSelect_least (ms : List ℚ) (r : ℚ) (h : ms ≠ []) :
    (∀ j < cumSelect ms r, (ms.take (j + 1)).sum < r) ∧
    (r ≤ (ms.take (cumSelect ms r + 1)).sum ∨ cumSelect ms r = ms.length - 1) := by
  induction ms generalizing r with
  | nil => exact absurd rfl h
  | cons m rest ih =>
    cases rest with
    | nil =>
      refine ⟨?_, ?_⟩
      · intro j hj
        simp [cumSelect] at hj
      · right
        simp [cumSelect]
    | cons m2 rest2 =>
      rw [cumSelect]
      by_cases hr : r ≤ m
      · refine ⟨?_, ?_⟩
        · intro j hj
          simp [if_pos hr] at hj
        · left
          simpa [if_pos hr] using hr
      · obtain ⟨ihle, ihsel⟩ := ih (r - m) (by simp)
        simp only [if_neg hr]
        refine ⟨?_, ?_⟩
        · intro j hj
          cases j with
          | zero =>
            simpa using lt_of_not_le hr
          | succ j2 =>
            have hj2 : j2 < cumSelect (m2 :: rest2) (r - m) := by omega
            have hts := ihle j2 hj2
            simp only [List.take_succ_cons, List.sum_cons] at hts ⊢
            linarith
        · cases ihsel with
          | inl hle =>
            left
            simp only [List.take_succ_cons, List.sum_cons] at hle ⊢
            linarith
          | inr heq =>
            right
            simp only [List.length_cons] at heq ⊢
            omega

/-- Resampling one token preserves the count invariant and yields a new
topic strictly below n_topics. -/
theorem sampleToken_inv (K W D : ℕ) (N : ℤ) (alpha eta : ℚ) (c : Counts)
    (w d zold : ℕ) (u : ℚ) (hK : 1 ≤ K) (hw : w < W) (hd : d < D)
    (hz : zold < K) (hc : countInv c K W D N) :
    countInv (sampleToken K W alpha eta c w d zold u).2 K W D N ∧
    (sampleToken K W alpha eta c w d zold u).1 < K := by
  have hdec := countInv_adjust c K W D N w d zold (-1) hw hd hz hc
  set c1 := adjust c w d zold (-1) with hc1
  set ms := (List.range K).map (condMass c1 W alpha eta w d) with hms
  have hne : ms ≠ [] := by
    simp [hms, List.map_eq_nil_iff]
    omega
  have hsel : cumSelect ms (u * ms.sum) < K := by
    have := cumSelect_lt_length ms (u * ms.sum) hne
    simpa [hms] using this
  have hinc := countInv_adjust c1 K W D (N + (-1)) w d
    (cumSelect ms (u * ms.sum)) 1 hw hd hsel hdec
  constructor
  · have hN : N + (-1) + 1 = N := by ring
    rw [hN] at hinc
    simpa [sampleToken, hms] using hinc
  · simpa [sampleToken, hms] using hsel

/-- A full sweep preserves the count invariant, keeps one output topic
per token, and yields only topics strictly below n_topics. -/
theorem sweepGo_inv (K W D : ℕ) (N : ℤ) (alpha eta : ℚ) (rands : List ℚ)
    (ts : List (ℕ × ℕ × ℕ)) (i : ℕ) (c : Counts) (hK : 1 ≤ K)
    (hval : ∀ t ∈ ts, t.1 < W ∧ t.2.1 < D ∧ t.2.2 < K)
    (hc : countInv c K W D N) :
    countInv (sweepGo K W alpha eta rands ts i c).2 K W D N ∧
    (sweepGo K W alpha eta rands ts i c).1.length = ts.length ∧
    (∀ z ∈ (sweepGo K W alpha eta rands ts i c).1, z < K) := by
  induction ts generalizing i c with
  | nil => simpa [sweepGo] using hc
  | cons t rest ih =>
    obtain ⟨hw, hd, hz⟩ := hval t (List.mem_cons_self t rest)
    have hstep := sampleToken_inv K W D N alpha eta c t.1 t.2.1 t.2.2
      (rands.getD (i % rands.length) 0) hK hw hd hz hc
    have hrest := ih (i + 1) _ (fun t2 ht2 => hval t2 (List.mem_cons_of_mem t ht2))
      hstep.1
    refine ⟨?_, ?_, ?_⟩
    · simpa [sweepGo] using hrest.1
    · simpa [sweepGo] using hrest.2.1
    · intro z hzmem
      simp only [sweepGo, List.mem_cons] at hzmem
      cases hzmem with
      | inl heq => exact heq ▸ hstep.2
      | inr hmem => exact hrest.2.2 z hmem

theorem rowTokens_mem (row : List ℕ) (w : ℕ) (hw : w ∈ rowTokens row) :
    w < row.length := by
  simp only [rowTokens, List.mem_flatten, List.mem_map] at hw
  obtain ⟨l, ⟨p, hp, hl⟩, hwl⟩ := hw
  subst hl
  have hrep := List.eq_of_mem_replicate hwl
  subst hrep
  have := List.mem_enum_iff_getElem?.mp hp
  exact (List.getElem?_eq_some.mp this).1

theorem matrixTokens_mem (X : List (List ℕ)) (p : ℕ × ℕ)
    (hp : p ∈ matrixTokens X) :
    p.2 < X.length ∧ ∃ row ∈ X, p.1 < row.length := by
  simp only [matrixTokens, List.mem_flatten, List.mem_map] at hp
  obtain ⟨l, ⟨q, hq, hl⟩, hpl⟩ := hp
  subst hl
  simp only [List.mem_map] at hpl
  obtain ⟨w, hw, hwp⟩ := hpl
  subst hwp
  have hget := List.mem_enum_iff_getElem?.mp hq
  have hlen := (List.getElem?_eq_some.mp hget).1
  refine ⟨hlen, q.2, ?_, rowTokens_mem q.2 w hw⟩
  obtain ⟨hl2, he⟩ := List.getElem?_eq_some.mp hget
  exact he ▸ List.getElem_mem hl2

theorem applyTokens_inv (K W D : ℕ) (ts : List (ℕ × ℕ × ℕ)) (c : Counts)
    (N : ℤ) (hval : ∀ t ∈ ts, t.1 < W ∧ t.2.1 < D ∧ t.2.2 < K)
    (hc : countInv c K W D N) :
    countInv (applyTokens c ts) K W D (N + ts.length) := by
  induction ts generalizing c N with
  | nil => simpa [applyTokens] using hc
  | cons t rest ih =>
    obtain ⟨hw, hd, hz⟩ := hval t (List.mem_cons_self t rest)
    have hstep := countInv_adjust c K W D N t.1 t.2.1 t.2.2 1 hw hd hz hc
    have := ih _ _ (fun t2 ht2 => hval t2 (List.mem_cons_of_mem t ht2)) hstep
    have harith : N + 1 + (rest.length : ℤ) = N + ((t :: rest).length : ℤ) := by
      simp [List.length_cons]
      ring
    rw [harith] at this
    simpa [applyTokens] using this

theorem applyTokens_nzw (ts : List (ℕ × ℕ × ℕ)) (c : Counts) (z w : ℕ) :
    (applyTokens c ts).nzw z w =
      c.nzw z w + ((ts.filter (fun t => t.2.2 = z ∧ t.1 = w)).length : ℤ) := by
  induction ts generalizing c with
  | nil => simp [applyTokens]
  | cons t rest ih =>
    have hstep : (adjust c t.1 t.2.1 t.2.2 1).nzw z w =
        c.nzw z w + (if t.2.2 = z ∧ t.1 = w then 1 else 0) := by
      rw [adjust_nzw_eq]
      by_cases h1 : z = t.2.2 <;> by_cases h2 : w = t.1 <;>
        simp [bump, h1, h2, eq_comm]
    show (applyTokens (adjust c t.1 t.2.1 t.2.2 1) rest).nzw z w = _
    rw [ih]
    rw [hstep]
    by_cases hp : t.2.2 = z ∧ t.1 = w
    · simp [List.filter_cons, hp]
      ring
    · simp only [List.filter_cons]
      rw [if_neg (by simpa using hp)]
      simp [hp]

theorem applyTokens_ndz (ts : List (ℕ × ℕ × ℕ)) (c : Counts) (d z : ℕ) :
    (applyTokens c ts).ndz d z =
      c.ndz d z + ((ts.filter (fun t => t.2.1 = d ∧ t.2.2 = z)).length : ℤ) := by
  induction ts generalizing c with
  | nil => simp [applyTokens]
  | cons t rest ih =>
    have hstep : (adjust c t.1 t.2.1 t.2.2 1).ndz d z =
        c.ndz d z + (if t.2.1 = d ∧ t.2.2 = z then 1 else 0) := by
      rw [adjust_ndz_eq]
      by_cases h1 : d = t.2.1 <;> by_cases h2 : z = t.2.2 <;>
        simp [bump, h1, h2, eq_comm]
    show (applyTokens (adjust c t.1 t.2.1 t.2.2 1) rest).ndz d z = _
    rw [ih]
    rw [hstep]
    by_cases hp : t.2.1 = d ∧ t.2.2 = z
    · simp [List.filter_cons, hp]
      ring
    · simp only [List.filter_cons]
      rw [if_neg (by simpa using hp)]
      simp [hp]

theorem applyTokens_nz (ts : List (ℕ × ℕ × ℕ)) (c : Counts) (z : ℕ) :
    (applyTokens c ts).nz z =
      c.nz z + ((ts.filter (fun t => t.2.2 = z)).length : ℤ) := by
  induction ts generalizing c with
  | nil => simp [applyTokens]
  | cons t rest ih =>
    have hstep : (adjust c t.1 t.2.1 t.2.2 1).nz z =
        c.nz z + (if t.2.2 = z then 1 else 0) := by
      rw [adjust_nz_eq]
      by_cases h1 : z = t.2.2 <;> simp [bump, h1, eq_comm]
    show (applyTokens (adjust c t.1 t.2.1 t.2.2 1) rest).nz z = _
    rw [ih]
    rw [hstep]
    by_cases hp : t.2.2 = z
    · simp [List.filter_cons, hp]
      ring
    · simp only [List.filter_cons]
      rw [if_neg (by simpa using hp)]
      simp [hp]

theorem initAssign_zs (K : ℕ) (toks : List (ℕ × ℕ)) :
    (initAssign K toks).map (fun t => t.2.2) =
      (List.range toks.length).map (fun i => i % K) := by
  have h1 : (initAssign K toks).map (fun t => t.2.2) =
      toks.enum.map (fun p => p.1 % K) := by
    simp [initAssign, List.map_map]
  rw [h1]
  have h2 : toks.enum.map (fun p => p.1 % K) =
      (toks.enum.map Prod.fst).map (fun i => i % K) := by
    rw [List.map_map]
    rfl
  rw [h2, List.enum_map_fst]

theorem initAssign_valid (K W : ℕ) (X : List (List ℕ)) (hK : 1 ≤ K)
    (hrect : ∀ row ∈ X, row.length = W) :
    ∀ t ∈ initAssign K (matrixTokens X),
      t.1 < W ∧ t.2.1 < X.length ∧ t.2.2 < K := by
  intro t ht
  simp only [initAssign, List.mem_map] at ht
  obtain ⟨p, hp, hpt⟩ := ht
  subst hpt
  have hget := List.mem_enum_iff_getElem?.mp hp
  obtain ⟨hl, he⟩ := List.getElem?_eq_some.mp hget
  have hmem : p.2 ∈ matrixTokens X := he ▸ List.getElem_mem hl
  obtain ⟨hd, row, hrow, hwrow⟩ := matrixTokens_mem X p.2 hmem
  refine ⟨?_, hd, Nat.mod_lt _ (by omega)⟩
  have := hrect row hrow
  omega

theorem initState_counts (m : Model) (X : List (List ℕ)) :
    countsOf (initState m X) =
      applyTokens zeroCounts (initAssign m.n_topics (matrixTokens X)) := by
  simp [initState, countsOf]

theorem initState_zs (m : Model) (X : List (List ℕ)) :
    (initState m X).ZS =
      (List.range (matrixTokens X).length).map (fun i => i % m.n_topics) := by
  simp only [initState]
  exact initAssign_zs m.n_topics (matrixTokens X)

theorem ceilDiv_succ (refresh n1 : ℕ) (hr : 0 < refresh) (hn : 1 ≤ n1) :
    (n1 + refresh - 1) / refresh = (n1 - refresh + refresh - 1) / refresh + 1 := by
  by_cases hcase : refresh < n1
  · have heq : n1 + refresh - 1 = (n1 - refresh + refresh - 1) + refresh := by omega
    rw [heq, Nat.add_div_right _ hr]
  · have h0 : n1 - refresh = 0 := by omega
    rw [h0]
    have hleft : (n1 + refresh - 1) / refresh = 1 :=
      Nat.div_eq_of_lt_le (by omega) (by omega)
    have hright : (0 + refresh - 1) / refresh = 0 :=
      Nat.div_eq_of_lt (by omega)
    rw [hleft, hright]

theorem fitGo_len {M : Type} {A : Type} (samp : ℕ → M → M) (ll : M → A)
    (refresh : ℕ) (hr : 0 < refresh) :
    ∀ (fuel n_iter it : ℕ) (m : M), n_iter - it ≤ fuel →
      (fitGo samp ll n_iter refresh it m).2.length =
        (n_iter - it + refresh - 1) / refresh + 1 := by
  intro fuel
  induction fuel with
  | zero =>
    intro n_iter it m hf
    rw [fitGo, dif_neg (by omega)]
    have h0 : n_iter - it = 0 := by omega
    rw [h0]
    have hdiv : (refresh - 1) / refresh = 0 := Nat.div_eq_of_lt (by omega)
    simp [hdiv]
  | succ f ih =>
    intro n_iter it m hf
    by_cases hit : it < n_iter
    · rw [fitGo, dif_pos ⟨hit, hr⟩]
      have hle : n_iter - (it + refresh) ≤ f := by omega
      have hrec := ih n_iter (it + refresh)
        (samp (min refresh (n_iter - it)) m) hle
      simp only [List.length_cons, hrec]
      have hshift : n_iter - (it + refresh) = n_iter - it - refresh := by omega
      rw [hshift]
      have := ceilDiv_succ refresh (n_iter - it) hr (by omega)
      omega
    · rw [fitGo, dif_neg (by omega)]
      have h0 : n_iter - it = 0 := by omega
      rw [h0]
      have hdiv : (refresh - 1) / refresh = 0 := Nat.div_eq_of_lt (by omega)
      simp [hdiv]

theorem fitGo_count (refresh : ℕ) (hr : 0 < refresh) :
    ∀ (fuel n_iter it m : ℕ), n_iter - it ≤ fuel →
      fitGo (fun k n => n + k) (fun n => n) n_iter refresh it m =
        (m + (n_iter - it),
         (List.range ((n_iter - it + refresh - 1) / refresh + 1)).map
           (fun j => m + min (j * refresh) (n_iter - it))) := by
  intro fuel
  induction fuel with
  | zero =>
    intro n_iter it m hf
    rw [fitGo, dif_neg (by omega)]
    have h0 : n_iter - it = 0 := by omega
    rw [h0]
    have hdiv : (0 + refresh - 1) / refresh = 0 := Nat.div_eq_of_lt (by omega)
    rw [hdiv]
    simp
  | succ f ih =>
    intro n_iter it m hf
    by_cases hit : it < n_iter
    · rw [fitGo, dif_pos ⟨hit, hr⟩]
      have hle : n_iter - (it + refresh) ≤ f := by omega
      have hrec := ih n_iter (it + refresh)
        (m + min refresh (n_iter - it)) hle
      show ((fitGo (fun k n => n + k) (fun n => n) n_iter refresh (it + refresh)
          (m + min refresh (n_iter - it))).1,
        m :: (fitGo (fun k n => n + k) (fun n => n) n_iter refresh (it + refresh)
          (m + min refresh (n_iter - it))).2) =
        (m + (n_iter - it),
         (List.range ((n_iter - it + refresh - 1) / refresh + 1)).map
           (fun j => m + min (j * refresh) (n_iter - it)))
      rw [hrec]
      refine Prod.ext ?_ ?_
      · show m + min refresh (n_iter - it) + (n_iter - (it + refresh)) = m + (n_iter - it)
        omega
      · show m :: (List.range ((n_iter - (it + refresh) + refresh - 1) / refresh + 1)).map
            (fun j => m + min refresh (n_iter - it) + min (j * refresh) (n_iter - (it + refresh))) =
          (List.range ((n_iter - it + refresh - 1) / refresh + 1)).map
            (fun j => m + min (j * refresh) (n_iter - it))
        have hshift : n_iter - (it + refresh) = n_iter - it - refresh := by omega
        rw [hshift, ceilDiv_succ refresh (n_iter - it) hr (by omega)]
        conv_rhs => rw [List.range_succ_eq_map, List.map_cons, List.map_map]
        refine List.cons_eq_cons.mpr ⟨by omega, ?_⟩
        apply List.map_congr_left
        intro j hj
        simp only [Function.comp]
        have hjr : Nat.succ j * refresh = j * refresh + refresh := Nat.succ_mul j refresh
        rw [hjr]
        generalize j * refresh = t
        omega
    · rw [fitGo, dif_neg (by omega)]
      have h0 : n_iter - it = 0 := by omega
      rw [h0]
      have hdiv : (0 + refresh - 1) / refresh = 0 := Nat.div_eq_of_lt (by omega)
      rw [hdiv]
      simp

theorem normRow_length (l : List ℚ) : (normRow l).length = l.length := by
  simp [normRow]

theorem vecAdd_vecSub (s row : List ℚ) (h : row.length = s.length) :
    vecAdd (vecSub s row) row = s := by
  induction s generalizing row with
  | nil =>
    cases row with
    | nil => rfl
    | cons a l => simp at h
  | cons x xs ih =>
    cases row with
    | nil => simp at h
    | cons a l =>
      simp only [List.length_cons] at h
      simp only [vecSub, vecAdd, List.zipWith_cons_cons]
      rw [show x - a + a = x by ring]
      have := ih l (by omega)
      simp only [vecSub, vecAdd] at this
      rw [this]

theorem getD_vecSub (a b : List ℚ) (h : a.length = b.length) (z : ℕ) :
    (vecSub a b).getD z 0 = a.getD z 0 - b.getD z 0 := by
  induction a generalizing b z with
  | nil =>
    cases b with
    | nil => simp [vecSub]
    | cons y l => simp at h
  | cons x xs ih =>
    cases b with
    | nil => simp at h
    | cons y l =>
      simp only [List.length_cons] at h
      cases z with
      | zero => simp [vecSub]
      | succ z2 =>
        simp only [vecSub, List.zipWith_cons_cons, List.getD_cons_succ]
        exact ih l (by omega) z2

theorem rowUpdGo_eq_map (phi : ℕ → ℕ → ℚ) (K : ℕ) (alpha : ℚ) :
    ∀ (l : List (ℕ × List ℚ)) (s : List ℚ),
      (∀ p ∈ l, (p.2 : List ℚ).length = s.length) →
      rowUpdGo phi K alpha l s =
        l.map (fun p => (List.range K).map
          (fun z => phi z p.1 * ((vecSub s p.2).getD z 0 + alpha))) := by
  intro l
  induction l with
  | nil => intro s hlen; rfl
  | cons p rest ih =>
    intro s hlen
    obtain ⟨w, row⟩ := p
    have hrow : row.length = s.length :=
      hlen (w, row) (List.mem_cons_self _ _)
    show (List.range K).map (fun z => phi z w * ((vecSub s row).getD z 0 + alpha)) ::
        rowUpdGo phi K alpha rest (vecAdd (vecSub s row) row) = _
    rw [vecAdd_vecSub s row hrow]
    rw [ih s (fun q hq => hlen q (List.mem_cons_of_mem _ hq))]
    rfl

theorem colSums_length (K : ℕ) (P : List (List ℚ)) :
    (colSums K P).length = K := by
  simp [colSums]

theorem sourceRound_eq_claim (phi : ℕ → ℕ → ℚ) (K : ℕ) (alpha : ℚ)
    (ws : List ℕ) (P : List (List ℚ))
    (hlen : ∀ row ∈ P, row.length = K) :
    sourceRound phi K alpha ws P = claimRound phi K alpha ws P := by
  unfold sourceRound claimRound
  rw [rowUpdGo_eq_map phi K alpha (ws.zip P) (colSums K P) ?hl]
  case hl =>
    intro p hp
    have hmem := (List.of_mem_zip hp).2
    rw [hlen p.2 hmem, colSums_length]
  rw [List.map_map]
  apply List.map_congr_left
  intro p hp
  simp only [Function.comp]
  congr 1
  apply List.map_congr_left
  intro z hz
  have hmem := (List.of_mem_zip hp).2
  rw [getD_vecSub (colSums K P) p.2 (by rw [hlen p.2 hmem, colSums_length]) z]

theorem rowUpdGo_row_len (phi : ℕ → ℕ → ℚ) (K : ℕ) (alpha : ℚ) :
    ∀ (l : List (ℕ × List ℚ)) (s : List ℚ),
      ∀ r ∈ rowUpdGo phi K alpha l s, r.length = K := by
  intro l
  induction l with
  | nil =>
    intro s r hr
    simp [rowUpdGo] at hr
  | cons p rest ih =>
    intro s r hr
    obtain ⟨w, row⟩ := p
    have hshape : rowUpdGo phi K alpha ((w, row) :: rest) s =
        (List.range K).map (fun z => phi z w * ((vecSub s row).getD z 0 + alpha)) ::
          rowUpdGo phi K alpha rest (vecAdd (vecSub s row) row) := rfl
    rw [hshape] at hr
    cases hr with
    | head => simp
    | tail _ hmem => exact ih _ r hmem

theorem sourceRound_row_len (phi : ℕ → ℕ → ℚ) (K : ℕ) (alpha : ℚ)
    (ws : List ℕ) (P : List (List ℚ)) :
    ∀ row ∈ sourceRound phi K alpha ws P, row.length = K := by
  intro row hrow
  unfold sourceRound at hrow
  simp only [List.mem_map] at hrow
  obtain ⟨r2, hr2, hrr⟩ := hrow
  subst hrr
  rw [normRow_length]
  exact rowUpdGo_row_len phi K alpha (ws.zip P) (colSums K P) r2 hr2

theorem initPZS_row_len (phi : ℕ → ℕ → ℚ) (K : ℕ) (alpha : ℚ) (ws : List ℕ) :
    ∀ row ∈ initPZS phi K alpha ws, row.length = K := by
  intro row hrow
  simp only [initPZS, List.mem_map] at hrow
  obtain ⟨w, hw, hrr⟩ := hrow
  subst hrr
  rw [normRow_length]
  simp

theorem iterLoop_eq_claim (phi : ℕ → ℕ → ℚ) (K : ℕ) (alpha tol : ℚ)
    (ws : List ℕ) :
    ∀ (n : ℕ) (P : List (List ℚ)), (∀ row ∈ P, row.length = K) →
      iterLoop phi K alpha tol ws n P = claimIterLoop phi K alpha tol ws n P := by
  intro n
  induction n with
  | zero => intro P hP; rfl
  | succ n2 ih =>
    intro P hP
    rw [iterLoop, claimIterLoop]
    rw [← sourceRound_eq_claim phi K alpha ws P hP]
    by_cases hd : l1Dist (sourceRound phi K alpha ws P) P < tol
    · simp only [if_pos hd]
    · simp only [if_neg hd]
      exact ih (sourceRound phi K alpha ws P) (sourceRound_row_len phi K alpha ws P)

theorem transformDoc_eq_claim (phi : ℕ → ℕ → ℚ) (K : ℕ) (alpha : ℚ)
    (max_iter : ℕ) (tol : ℚ) (ws : List ℕ) :
    transformDoc phi K alpha max_iter tol ws =
      claimTransformDoc phi K alpha max_iter tol ws := by
  unfold transformDoc claimTransformDoc
  rw [iterLoop_eq_claim phi K alpha tol ws max_iter (initPZS phi K alpha ws)
    (initPZS_row_len phi K alpha ws)]

theorem sampleTopicsOnce_rands (m : Model) (rands : List ℚ) :
    (sampleTopicsOnce m rands)._rands = m._rands := rfl

theorem stGo_rands (shuffle : ℕ → List ℚ → List ℚ) :
    ∀ (n it : ℕ) (m : Model) (rands : List ℚ),
      (stGo shuffle it n m rands)._rands = m._rands := by
  intro n
  induction n with
  | zero => intro it m rands; rfl
  | succ n2 ih =>
    intro it m rands
    show (stGo shuffle (it + 1) n2
      (sampleTopicsOnce m (shuffle it rands)) (shuffle it rands))._rands = m._rands
    rw [ih]
    rfl

theorem chain_shift (shuffle : ℕ → List ℚ → List ℚ) (it : ℕ) (rands : List ℚ) :
    ∀ j : ℕ, chainFrom shuffle (it + 1) (shuffle it rands) j =
      chainFrom shuffle it rands (j + 1) := by
  intro j
  induction j with
  | zero =>
    show shuffle it rands = shuffle (it + 0) (chainFrom shuffle it rands 0)
    rfl
  | succ j2 ih =>
    show shuffle (it + 1 + j2) (chainFrom shuffle (it + 1) (shuffle it rands) j2) =
      shuffle (it + (j2 + 1)) (chainFrom shuffle it rands (j2 + 1))
    rw [ih]
    congr 1
    omega

theorem stGo_eq_fold (shuffle : ℕ → List ℚ → List ℚ) :
    ∀ (n it : ℕ) (m : Model) (rands : List ℚ),
      stGo shuffle it n m rands =
        (List.range n).foldl
          (fun mm j => sampleTopicsOnce mm (chainFrom shuffle it rands (j + 1))) m := by
  intro n
  induction n with
  | zero => intro it m rands; rfl
  | succ n2 ih =>
    intro it m rands
    show stGo shuffle (it + 1) n2
        (sampleTopicsOnce m (shuffle it rands)) (shuffle it rands) = _
    rw [ih]
    rw [List.range_succ_eq_map, List.foldl_cons, List.foldl_map]
    have hbase : sampleTopicsOnce m (chainFrom shuffle it rands (0 + 1)) =
        sampleTopicsOnce m (shuffle it rands) := by
      show sampleTopicsOnce m (shuffle (it + 0) (chainFrom shuffle it rands 0)) = _
      rfl
    rw [hbase]
    congr 1
    funext mm j
    rw [chain_shift shuffle it rands (j + 1)]

theorem sweepRands_eq_chain (shuffle : ℕ → List ℚ → List ℚ) (pool : List ℚ) :
    ∀ k : ℕ, sweepRands shuffle pool k = chainFrom shuffle 0 pool (k + 1) := by
  intro k
  induction k with
  | zero =>
    show shuffle 0 pool = shuffle (0 + 0) (chainFrom shuffle 0 pool 0)
    rfl
  | succ k2 ih =>
    show shuffle (k2 + 1) (sweepRands shuffle pool k2) =
      shuffle (0 + (k2 + 1)) (chainFrom shuffle 0 pool (k2 + 1))
    rw [ih]
    congr 1
    omega

theorem sample_topics_eq_foldSweeps (shuffle : ℕ → List ℚ → List ℚ)
    (m : Model) (n : ℕ) :
    sample_topics shuffle m n = foldSweeps shuffle m n := by
  unfold sample_topics foldSweeps
  rw [stGo_eq_fold]
  congr 1
  funext mm k
  rw [sweepRands_eq_chain]

theorem sweepRands_perm (shuffle : ℕ → List ℚ → List ℚ) (pool : List ℚ)
    (hperm : ∀ (i : ℕ) (l : List ℚ), (shuffle i l).Perm l) :
    ∀ k : ℕ, (sweepRands shuffle pool k).Perm pool := by
  intro k
  induction k with
  | zero => exact hperm 0 pool
  | succ k2 ih =>
    exact (hperm (k2 + 1) (sweepRands shuffle pool k2)).trans ih

/-- Claim C1: for every token with word w, document d and current topic
z_old, one per-token step of the Sampler Engine first decrements
topicWord[z_old][w], docTopic[d][z_old] and topicTotal[z_old] by 1,
then computes for every topic z the unnormalized mass
(topicWord[z][w] + eta) * (docTopic[d][z] + alpha) /
(topicTotal[z] + eta * vocab_size) from the decremented counts, samples
z_new as the smallest index where the cumulative sum reaches
u * (total mass), clamped to n_topics - 1 when every cumulative value
falls short, and finally increments the three counts for z_new; the
sweep writes z_new into position i of the topic list. -/
theorem claim_C1 (K W : ℕ) (alpha eta : ℚ) (c c1 : Counts) (ms : List ℚ)
    (w d zold : ℕ) (u : ℚ) (rands : List ℚ) (rest : List (ℕ × ℕ × ℕ)) (i : ℕ)
    (hK : 1 ≤ K)
    (hc1 : c1 = adjust c w d zold (-1))
    (hms : ms = (List.range K).map (condMass c1 W alpha eta w d)) :
    sampleToken K W alpha eta c w d zold u =
      (cumSelect ms (u * ms.sum), adjust c1 w d (cumSelect ms (u * ms.sum)) 1) ∧
    (∀ z, z < K → ms.getD z 0 =
      ((c1.nzw z w : ℚ) + eta) * ((c1.ndz d z : ℚ) + alpha) /
        ((c1.nz z : ℚ) + eta * (W : ℚ))) ∧
    (∀ j < cumSelect ms (u * ms.sum), (ms.take (j + 1)).sum < u * ms.sum) ∧
    (u * ms.sum ≤ (ms.take (cumSelect ms (u * ms.sum) + 1)).sum ∨
      cumSelect ms (u * ms.sum) = K - 1) ∧
    cumSelect ms (u * ms.sum) < K ∧
    sweepGo K W alpha eta rands ((w, d, zold) :: rest) i c =
      ((sampleToken K W alpha eta c w d zold (rands.getD (i % rands.length) 0)).1 ::
         (sweepGo K W alpha eta rands rest (i + 1)
           (sampleToken K W alpha eta c w d zold (rands.getD (i % rands.length) 0)).2).1,
       (sweepGo K W alpha eta rands rest (i + 1)
         (sampleToken K W alpha eta c w d zold (rands.getD (i % rands.length) 0)).2).2) := by
  subst hc1
  subst hms
  have hlen : ((List.range K).map
      (condMass (adjust c w d zold (-1)) W alpha eta w d)).length = K := by
    simp
  have hne : (List.range K).map
      (condMass (adjust c w d zold (-1)) W alpha eta w d) ≠ [] := by
    intro hcon
    have := congrArg List.length hcon
    rw [hlen] at this
    simp at this
    omega
  refine ⟨rfl, ?_, ?_, ?_, ?_, rfl⟩
  · intro z hz
    rw [List.getD_eq_getElem?_getD, List.getElem?_map, List.getElem?_range hz]
    rfl
  · exact (cumSelect_least _ _ hne).1
  · have := (cumSelect_least ((List.range K).map
      (condMass (adjust c w d zold (-1)) W alpha eta w d))
      (u * ((List.range K).map (condMass (adjust c w d zold (-1)) W alpha eta w d)).sum)
      hne).2
    rw [hlen] at this
    exact this
  · have := cumSelect_lt_length ((List.range K).map
      (condMass (adjust c w d zold (-1)) W alpha eta w d))
      (u * ((List.range K).map (condMass (adjust c w d zold (-1)) W alpha eta w d)).sum)
      hne
    rw [hlen] at this
    exact this

/-- Witness for claim C1 at a concrete two-topic state. -/
theorem claim_C1_witness :
    cumSelect ((List.range 2).map
        (condMass (adjust (countsOf demoModel) 0 0 0 (-1)) 2 (1/10) (1/100) 0 0))
      ((1/2) * ((List.range 2).map
        (condMass (adjust (countsOf demoModel) 0 0 0 (-1)) 2 (1/10) (1/100) 0 0)).sum) < 2 :=
  (claim_C1 2 2 (1/10) (1/100) (countsOf demoModel) _ _ 0 0 0 (1/2) [1/2] [] 0
    (by decide) rfl rfl).2.2.2.2.1

/-- Claim C2: after initialization the three count tables satisfy the
count invariant (nzw row sums equal nz, ndz column sums equal nz, the
nz entries sum to the token count N), and one sweep of the sampler
preserves the invariant while producing only topics below n_topics. -/
theorem claim_C2 :
    (∀ (m : Model) (X : List (List ℕ)) (W : ℕ), 1 ≤ m.n_topics →
      (∀ row ∈ X, row.length = W) →
      countInv (countsOf (initState m X)) m.n_topics W X.length
        ((matrixTokens X).length : ℤ)) ∧
    (∀ (K W D : ℕ) (N : ℤ) (alpha eta : ℚ) (rands : List ℚ)
       (ts : List (ℕ × ℕ × ℕ)) (c : Counts), 1 ≤ K →
      (∀ t ∈ ts, t.1 < W ∧ t.2.1 < D ∧ t.2.2 < K) →
      countInv c K W D N →
      countInv (sweepTokens K W alpha eta rands ts c).2 K W D N ∧
      (∀ z ∈ (sweepTokens K W alpha eta rands ts c).1, z < K)) := by
  constructor
  · intro m X W hK hrect
    rw [initState_counts]
    have hval := initAssign_valid m.n_topics W X hK hrect
    have := applyTokens_inv m.n_topics W X.length
      (initAssign m.n_topics (matrixTokens X)) zeroCounts 0 hval
      (countInv_zero m.n_topics W X.length)
    have hlen : (initAssign m.n_topics (matrixTokens X)).length =
        (matrixTokens X).length := by
      simp [initAssign]
    rw [hlen] at this
    simpa using this
  · intro K W D N alpha eta rands ts c hK hval hc
    have := sweepGo_inv K W D N alpha eta rands ts 0 c hK hval hc
    exact ⟨this.1, this.2.2⟩

/-- Witness for claim C2 at the concrete demo matrix and model. -/
theorem claim_C2_witness :
    countInv (countsOf (initState demoModel demoX)) 2 2 2
      ((matrixTokens demoX).length : ℤ) := by
  have := claim_C2.1 demoModel demoX 2 (by decide) (by decide)
  exact this

/-- Claim C3: components_ equals (nzw[z][w] + eta) normalized over the
vocabulary and doc_topic_ equals (ndz[d][z] + alpha) normalized over
the topics, every row of both sums to 1, and both are functions of the
current count tables alone (recomputed per access, never cached). -/
theorem claim_C3 (m : Model) (he : 0 < m.eta) (ha : 0 < m.alpha)
    (hW : 1 ≤ m.vocab_size) (hK : 1 ≤ m.n_topics)
    (hnzw : ∀ z ∈ Finset.range m.n_topics, ∀ w ∈ Finset.range m.vocab_size,
      0 ≤ m.nzw_ z w)
    (hndz : ∀ d ∈ Finset.range m.n_docs, ∀ z ∈ Finset.range m.n_topics,
      0 ≤ m.ndz_ d z) :
    (∀ z w, componentsOf m z w =
      ((m.nzw_ z w : ℚ) + m.eta) /
        (Finset.range m.vocab_size).sum (fun w2 => (m.nzw_ z w2 : ℚ) + m.eta)) ∧
    (∀ d z, docTopicOf m d z =
      ((m.ndz_ d z : ℚ) + m.alpha) /
        (Finset.range m.n_topics).sum (fun z2 => (m.ndz_ d z2 : ℚ) + m.alpha)) ∧
    (∀ z ∈ Finset.range m.n_topics,
      (Finset.range m.vocab_size).sum (componentsOf m z) = 1) ∧
    (∀ d ∈ Finset.range m.n_docs,
      (Finset.range m.n_topics).sum (docTopicOf m d) = 1) ∧
    (∀ m2 : Model, m.nzw_ = m2.nzw_ → m.eta = m2.eta →
      m.vocab_size = m2.vocab_size → componentsOf m = componentsOf m2) ∧
    (∀ m2 : Model, m.ndz_ = m2.ndz_ → m.alpha = m2.alpha →
      m.n_topics = m2.n_topics → docTopicOf m = docTopicOf m2) := by
  refine ⟨fun z w => rfl, fun d z => rfl, ?_, ?_, ?_, ?_⟩
  · intro z hz
    have hpos : 0 < (Finset.range m.vocab_size).sum
        (fun w2 => (m.nzw_ z w2 : ℚ) + m.eta) := by
      apply Finset.sum_pos
      · intro w2 hw2
        have := hnzw z hz w2 hw2
        have hcast : (0 : ℚ) ≤ (m.nzw_ z w2 : ℚ) := by exact_mod_cast this
        linarith
      · exact Finset.nonempty_range_iff.mpr (by omega)
    show (Finset.range m.vocab_size).sum (fun w =>
      ((m.nzw_ z w : ℚ) + m.eta) /
        (Finset.range m.vocab_size).sum (fun w2 => (m.nzw_ z w2 : ℚ) + m.eta)) = 1
    rw [← Finset.sum_div]
    exact div_self (ne_of_gt hpos)
  · intro d hd
    have hpos : 0 < (Finset.range m.n_topics).sum
        (fun z2 => (m.ndz_ d z2 : ℚ) + m.alpha) := by
      apply Finset.sum_pos
      · intro z2 hz2
        have := hndz d hd z2 hz2
        have hcast : (0 : ℚ) ≤ (m.ndz_ d z2 : ℚ) := by exact_mod_cast this
        linarith
      · exact Finset.nonempty_range_iff.mpr (by omega)
    show (Finset.range m.n_topics).sum (fun z =>
      ((m.ndz_ d z : ℚ) + m.alpha) /
        (Finset.range m.n_topics).sum (fun z2 => (m.ndz_ d z2 : ℚ) + m.alpha)) = 1
    rw [← Finset.sum_div]
    exact div_self (ne_of_gt hpos)
  · intro m2 h1 h2 h3
    funext z w
    simp [componentsOf, h1, h2, h3]
  · intro m2 h1 h2 h3
    funext d z
    simp [docTopicOf, h1, h2, h3]

/-- Witness for claim C3: the demo model's first topic-word row sums
to 1. -/
theorem claim_C3_witness :
    (Finset.range demoModel.vocab_size).sum (componentsOf demoModel 0) = 1 :=
  (claim_C3 demoModel (by norm_num [demoModel]) (by norm_num [demoModel])
    (by decide) (by decide) (by decide) (by decide)).2.2.1 0 (by decide)

/-- Claim C4: the transform method builds the initial per-token
soft-assignment matrix with rows proportional to phi[z][w_i] * alpha
normalized to 1, iterates for up to max_iter rounds replacing row i by
phi[z][w_i] * (column sums of the previous matrix excluding row i, plus
alpha) renormalized, exits early when the L1 distance between
successive matrices is below tol, and returns the normalized column
sums of the final matrix; the loop therefore computes exactly the
claim-worded fixed point claimTransformDoc, for every model and every
document. -/
theorem claim_C4 :
    (∀ (phi : ℕ → ℕ → ℚ) (K : ℕ) (alpha : ℚ) (max_iter : ℕ) (tol : ℚ)
       (ws : List ℕ),
      transformDoc phi K alpha max_iter tol ws =
        claimTransformDoc phi K alpha max_iter tol ws) ∧
    (∀ (m : Model) (X : List (List ℕ)) (max_iter : ℕ) (tol : ℚ),
      transformModel m X max_iter tol =
        X.map (fun row => claimTransformDoc (componentsOf m) m.n_topics m.alpha
          max_iter tol (rowTokens row))) := by
  constructor
  · exact transformDoc_eq_claim
  · intro m X max_iter tol
    unfold transformModel
    apply List.map_congr_left
    intro row hrow
    exact transformDoc_eq_claim (componentsOf m) m.n_topics m.alpha max_iter tol
      (rowTokens row)

/-- Counterexample for claim C5: sample_topics shuffles a private copy
of the pool (rands = self._rands.copy(), lda.py line 291), so after the
call the stored pool is unchanged and in particular does not equal the
reshuffled buffer, contradicting the claim that the stored pool itself
is mutated by the reshuffle. -/
theorem claim_C5_counterexample :
    ¬ ((sample_topics demoShuffle demoModel 1)._rands =
        demoShuffle 0 demoModel._rands) ∧
    (sample_topics demoShuffle demoModel 1)._rands = demoModel._rands := by
  have h2 : (sample_topics demoShuffle demoModel 1)._rands = demoModel._rands := rfl
  refine ⟨?_, h2⟩
  intro hcon
  rw [h2] at hcon
  have h3 : ([1/2, 1/4] : List ℚ) = [1/4, 1/2] := hcon
  norm_num at h3

/-- Claim C5 (amended): sample_topics leaves the model's stored pool
unchanged (it shuffles a private copy), the sweeps consume the
reshuffle chain sweepRands 0, 1, ... of that one fixed pool, and when
the shuffle is a permutation every sweep's draw list is a permutation
of the pool generated at construction. -/
theorem claim_C5 (shuffle : ℕ → List ℚ → List ℚ) (m : Model) (n : ℕ)
    (hperm : ∀ (i : ℕ) (l : List ℚ), (shuffle i l).Perm l) :
    (sample_topics shuffle m n)._rands = m._rands ∧
    sample_topics shuffle m n = foldSweeps shuffle m n ∧
    (∀ k : ℕ, (sweepRands shuffle m._rands k).Perm m._rands) := by
  refine ⟨stGo_rands shuffle n 0 m m._rands, sample_topics_eq_foldSweeps shuffle m n, ?_⟩
  exact sweepRands_perm shuffle m._rands hperm

/-- Witness for the amended claim C5 at the concrete demo model with a
reversing shuffle. -/
theorem claim_C5_witness :
    (sample_topics demoShuffle demoModel 1)._rands = demoModel._rands ∧
    (sweepRands demoShuffle demoModel._rands 0).Perm demoModel._rands := by
  have h := claim_C5 demoShuffle demoModel 1 (fun i l => List.reverse_perm l)
  exact ⟨h.1, h.2.2 0⟩

/-- Claim C6: the constructor errors exactly when alpha is not positive
or eta is not positive; on success the stored hyperparameters equal the
inputs unchanged (never clamped) and the pool is filled from the seed;
on error no model value exists at all. -/
theorem claim_C6 (rngPool : ℕ → List ℚ) (n_topics n_iter : ℕ)
    (alpha eta : ℚ) (seed refresh : ℕ) :
    ((alpha ≤ 0 ∨ eta ≤ 0) ↔
      ldaNew rngPool n_topics n_iter alpha eta seed refresh =
        Except.error "alpha and eta must be greater than zero") ∧
    (∀ mdl : Model,
      ldaNew rngPool n_topics n_iter alpha eta seed refresh = Except.ok mdl →
      (0 < alpha ∧ 0 < eta) ∧ mdl.alpha = alpha ∧ mdl.eta = eta ∧
        mdl._rands = rngPool seed ∧ mdl.n_topics = n_topics) := by
  by_cases hcond : alpha ≤ 0 ∨ eta ≤ 0
  · constructor
    · constructor
      · intro _
        rw [ldaNew, if_pos hcond]
      · intro _
        exact hcond
    · intro mdl hmdl
      rw [ldaNew, if_pos hcond] at hmdl
      exact absurd hmdl (by simp)
  · constructor
    · constructor
      · intro hc
        exact absurd hc hcond
      · intro herr
        rw [ldaNew, if_neg hcond] at herr
        exact absurd herr (by simp)
    · intro mdl hmdl
      rw [ldaNew, if_neg hcond] at hmdl
      have hm := (Except.ok.inj hmdl).symm
      subst hm
      push_neg at hcond
      exact ⟨⟨hcond.1, hcond.2⟩, rfl, rfl, rfl, rfl⟩

/-- Witness for claim C6: a non-positive alpha is rejected with the
exact constructor error. -/
theorem claim_C6_witness :
    ldaNew demoRng 2 3 (-1) (1/100) 0 10 =
      Except.error "alpha and eta must be greater than zero" :=
  (claim_C6 demoRng 2 3 (-1) (1/100) 0 10).1.mp (by norm_num)

/-- Claim C7: state setup assigns token i the topic i mod n_topics, a
deterministic round-robin that does not depend on the private pool (the
seed), and fills the three count tables so that each entry counts
exactly the matching tokens among these initial assignments. -/
theorem claim_C7 (m : Model) (X : List (List ℕ)) :
    ((initState m X).ZS =
      (List.range (matrixTokens X).length).map (fun i => i % m.n_topics)) ∧
    (∀ m2 : Model, m2.n_topics = m.n_topics →
      (initState m2 X).ZS = (initState m X).ZS ∧
      countsOf (initState m2 X) = countsOf (initState m X)) ∧
    (∀ z w : ℕ, (initState m X).nzw_ z w =
      (((initAssign m.n_topics (matrixTokens X)).filter
        (fun t => t.2.2 = z ∧ t.1 = w)).length : ℤ)) ∧
    (∀ d z : ℕ, (initState m X).ndz_ d z =
      (((initAssign m.n_topics (matrixTokens X)).filter
        (fun t => t.2.1 = d ∧ t.2.2 = z)).length : ℤ)) ∧
    (∀ z : ℕ, (initState m X).nz_ z =
      (((initAssign m.n_topics (matrixTokens X)).filter
        (fun t => t.2.2 = z)).length : ℤ)) := by
  have hzw := congrArg Counts.nzw (initState_counts m X)
  have hdz := congrArg Counts.ndz (initState_counts m X)
  have hz := congrArg Counts.nz (initState_counts m X)
  refine ⟨initState_zs m X, ?_, ?_, ?_, ?_⟩
  · intro m2 hm2
    constructor
    · rw [initState_zs, initState_zs, hm2]
    · rw [initState_counts, initState_counts, hm2]
  · intro z w
    have h1 : (initState m X).nzw_ z w =
        (applyTokens zeroCounts (initAssign m.n_topics (matrixTokens X))).nzw z w :=
      congrFun (congrFun hzw z) w
    rw [h1, applyTokens_nzw]
    simp [zeroCounts]
  · intro d z
    have h1 : (initState m X).ndz_ d z =
        (applyTokens zeroCounts (initAssign m.n_topics (matrixTokens X))).ndz d z :=
      congrFun (congrFun hdz d) z
    rw [h1, applyTokens_ndz]
    simp [zeroCounts]
  · intro z
    have h1 : (initState m X).nz_ z =
        (applyTokens zeroCounts (initAssign m.n_topics (matrixTokens X))).nz z :=
      congrFun hz z
    rw [h1, applyTokens_nz]
    simp [zeroCounts]

/-- Witness for claim C7: on the demo matrix the assignments are the
round-robin list, and a model with a different pool produces the same
assignments. -/
theorem claim_C7_witness :
    ((initState demoModel demoX).ZS =
      (List.range (matrixTokens demoX).length).map (fun i => i % demoModel.n_topics)) ∧
    (initState demoModel2 demoX).ZS = (initState demoModel demoX).ZS :=
  ⟨(claim_C7 demoModel demoX).1,
   ((claim_C7 demoModel demoX).2.1 demoModel2 rfl).1⟩

/-- Claim C8: with refresh > 0 the fitting loop records
ceil(n_iter / refresh) + 1 log-likelihood values, one before each block
of at most refresh sweeps and one after the last sweep; instantiating
the loop with a sweep counter shows that exactly n_iter sweeps run in
total and that checkpoint j is taken after min(j * refresh, n_iter)
sweeps, in chronological order. -/
theorem claim_C8 (m : Model) (hr : 0 < m.refresh) :
    (∀ (M A : Type) (samp : ℕ → M → M) (ll : M → A) (st : M),
      (fitGo samp ll m.n_iter m.refresh 0 st).2.length =
        (m.n_iter + m.refresh - 1) / m.refresh + 1) ∧
    (fitGo (fun k n => n + k) (fun n => n) m.n_iter m.refresh 0 0 =
      (m.n_iter,
       (List.range ((m.n_iter + m.refresh - 1) / m.refresh + 1)).map
         (fun j => min (j * m.refresh) m.n_iter))) ∧
    (∀ (shuffle : ℕ → List ℚ → List ℚ) (ll : Model → ℚ) (X : List (List ℕ)),
      (fitModel shuffle ll m X).loglikelihoods_.length =
        (m.n_iter + m.refresh - 1) / m.refresh + 1) := by
  have hz : m.n_iter - 0 = m.n_iter := by omega
  refine ⟨?_, ?_, ?_⟩
  · intro M A samp ll st
    have := fitGo_len samp ll m.refresh hr m.n_iter m.n_iter 0 st (by omega)
    rwa [hz] at this
  · have := fitGo_count m.refresh hr m.n_iter m.n_iter 0 0 (by omega)
    rw [hz] at this
    simpa using this
  · intro shuffle ll X
    show (fitGo (fun k mm => sample_topics shuffle mm k) ll
      (initState m X).n_iter (initState m X).refresh 0 (initState m X)).2.length = _
    have hn : (initState m X).n_iter = m.n_iter := rfl
    have hf : (initState m X).refresh = m.refresh := rfl
    rw [hn, hf]
    have := fitGo_len (fun k mm => sample_topics shuffle mm k) ll m.refresh hr
      m.n_iter m.n_iter 0 (initState m X) (by omega)
    rwa [hz] at this

/-- Witness for claim C8 at the demo model: n_iter = 3, refresh = 2,
so the history has 3 entries at checkpoints 0, 2 and 3 sweeps, and the
counter instantiation runs exactly 3 sweeps. -/
theorem claim_C8_witness :
    fitGo (fun k n => n + k) (fun n => n) demoModel.n_iter demoModel.refresh 0 0 =
      (demoModel.n_iter,
       (List.range ((demoModel.n_iter + demoModel.refresh - 1) / demoModel.refresh + 1)).map
         (fun j => min (j * demoModel.refresh) demoModel.n_iter)) :=
  (claim_C8 demoModel (by decide)).2.1

/-- Claim C9: two training runs from models constructed with the same
pool generator, hyperparameters and seed, on the same matrix with the
same collaborators, yield identical fitted states, identical topic
assignments, and identical topic-word and document-topic
distributions. -/
theorem claim_C9 (rngPool : ℕ → List ℚ) (shuffle : ℕ → List ℚ → List ℚ)
    (ll : Model → ℚ) (n_topics n_iter : ℕ) (alpha eta : ℚ)
    (seed refresh : ℕ) (X : List (List ℕ)) (m1 m2 : Model)
    (h1 : ldaNew rngPool n_topics n_iter alpha eta seed refresh = Except.ok m1)
    (h2 : ldaNew rngPool n_topics n_iter alpha eta seed refresh = Except.ok m2) :
    fitModel shuffle ll m1 X = fitModel shuffle ll m2 X ∧
    (fitModel shuffle ll m1 X).ZS = (fitModel shuffle ll m2 X).ZS ∧
    componentsOf (ldaFit shuffle ll m1 X) = componentsOf (ldaFit shuffle ll m2 X) ∧
    docTopicOf (ldaFit shuffle ll m1 X) = docTopicOf (ldaFit shuffle ll m2 X) := by
  have hm : m1 = m2 := Except.ok.inj (h1.symm.trans h2)
  subst hm
  exact ⟨rfl, rfl, rfl, rfl⟩

/-- Witness for claim C9: the demo constructor arguments accept a model
and the fitted distributions coincide run to run. -/
theorem claim_C9_witness :
    componentsOf (ldaFit demoShuffle demoLL demoNewModel demoX) =
      componentsOf (ldaFit demoShuffle demoLL demoNewModel demoX) :=
  (claim_C9 demoRng demoShuffle demoLL 2 1 (1/10) (1/100) 0 1 demoX
    demoNewModel demoNewModel
    (by rw [ldaNew, if_neg (by norm_num)]; rfl)
    (by rw [ldaNew, if_neg (by norm_num)]; rfl)).2.2.1

/-- Claim C10: fit_transform returns exactly the document-topic point
estimate of the state produced by fit on the same matrix; both run the
same private fitting procedure and project the same document-topic
counts. -/
theorem claim_C10 (shuffle : ℕ → List ℚ → List ℚ) (ll : Model → ℚ)
    (m : Model) (X : List (List ℕ)) :
    fit_transform shuffle ll m X = docTopicOf (fit shuffle ll m X) ∧
    fit shuffle ll m X = ldaFit shuffle ll m X ∧
    (fit shuffle ll m X).ndz_ = (fitModel shuffle ll m X).ndz_ ∧
    fit_transform shuffle ll m X = docTopicOf (ldaFit shuffle ll m X) :=
  ⟨rfl, rfl, rfl, rfl⟩

end LdaSpec
